import Mathlib

/-!
# Verification of the UEFI capsule extractor core

A shallow embedding, in Lean 4, of the core of the `UEFI-extract` tool:

* the capsule-name recognition shared by both container backends
  (`re.search(r'\.FL\d+', ...)` in `extractors/lenovo_iso.py` and
  `extractors/lenovo_exe.py`);
* candidate-capsule enumeration for the optical-image backend
  (`lenovo_iso._find_candidate_capsules`) and the installer-archive backend
  (`lenovo_exe._find_candidate_capsules`);
* the name-to-path dictionary both `FileParser.__enter__` methods build, and
  `FileParser.open` / `list_capsules` on top of it;
* the MBR partition-layout validation and payload-offset computation of
  `lenovo_iso.FileParser.__enter__`;
* the capsule handles (`LenovoISOCapsule`, `LenovoExeCapsule`) with their
  `read` / `size` behaviour, positions modelled explicitly;
* the firmware-tree search of `uefi-extract.py`: `find_file_by_guid`,
  `find_PE32` and `find_PEs`.

Strings are modelled as `List Char` so that every definition evaluates inside
the kernel.  Byte streams are modelled as `List Nat`.  External collaborators
(El Torito extraction, kaitai MBR parsing, the FAT driver, `innoextract`, the
`uefi_firmware` binary parser) are modelled by their outputs: a partition
table, a mounted volume, a listing, a firmware object tree.
-/

abbrev Str := List Char

/-- Python `str.lower()` restricted to the ASCII range, as used on GUID
strings and on the interactive answer strings. -/
def lowerStr (s : Str) : Str := s.map Char.toLower

/-- Does the regex `\.FL\d+` match at the head of the string: a literal dot,
then `FL`, then at least one decimal digit. -/
def flHere : Str → Bool
  | '.' :: 'F' :: 'L' :: c :: _ => c.isDigit
  | _ => false

/-- `re.search(r'\.FL\d+', s)` as a Boolean: the pattern `BIOS_CAPSULE_EXTENSION`
matches at some position of `s` (anywhere, not anchored). -/
def searchFL : Str → Bool
  | [] => false
  | c :: cs => flHere (c :: cs) || searchFL cs

/-- Helper for `suffixFL`: after the reversed leading digits, the reversed
string must continue with `L`, `F`, `.` (possibly after more digits). -/
def revTailFL : Str → Bool
  | 'L' :: 'F' :: '.' :: _ => true
  | c :: cs => c.isDigit && revTailFL cs
  | [] => false

/-- Spec-side predicate (for comparison with the source): the pattern
`\.FL\d+` matches as a suffix of `s`, i.e. `s` ends in a literal dot, `FL`,
and one or more decimal digits. -/
def suffixFL (s : Str) : Bool :=
  match s.reverse with
  | c :: cs => c.isDigit && revTailFL cs
  | [] => false

/-- Lexicographic comparison on code points, the order Python `list.sort()`
uses on `str` values. -/
def strLe (a b : Str) : Bool :=
  match a, b with
  | [], _ => true
  | _ :: _, [] => false
  | c :: cs, d :: ds =>
    if c.val < d.val then true
    else if d.val < c.val then false
    else strLe cs ds

/-- `'/'.join(segments)`. -/
def joinPath (segs : List Str) : Str := List.intercalate ['/'] segs

/-- `path.split('/')[-1]`: the final path segment of a `/`-separated path. -/
def basename (p : Str) : Str :=
  (List.splitOnP (fun c => c = '/') p).getLastD []

/-! ## Python dictionaries

Both `FileParser.__enter__` methods build
`dict([[path.split('/')[-1], path] for path in paths])`; `find_PEs` builds a
`dict` whose values are accumulated lists.  We model a Python `dict` as an
association list in insertion order: inserting an existing key overwrites its
value in place, inserting a fresh key appends. -/

/-- `k in d` on a Python dict. -/
def containsKey {α : Type} (m : List (Str × α)) (k : Str) : Bool :=
  m.any (fun kv => kv.1 = k)

/-- `d[k] = v` on a Python dict: overwrite in place, or append a fresh key. -/
def dictInsert {α : Type} (m : List (Str × α)) (k : Str) (v : α) : List (Str × α) :=
  if containsKey m k then
    m.map (fun kv => if kv.1 = k then (kv.1, v) else kv)
  else
    m ++ [(k, v)]

/-- `d[k]` / `d.get(k)` on a Python dict. -/
def dictLookup {α : Type} : List (Str × α) → Str → Option α
  | [], _ => none
  | kv :: m, k => if kv.1 = k then some kv.2 else dictLookup m k

/-- `dict(pairs)`: insert the pairs left to right into an empty dict. -/
def dictOfPairs {α : Type} (ps : List (Str × α)) : List (Str × α) :=
  ps.foldl (fun m kv => dictInsert m kv.1 kv.2) []

/-- Spec-side: the value attached to the *last* occurrence of key `k` in a
pair list, if any. -/
def lastValue? {α : Type} : List (Str × α) → Str → Option α
  | [], _ => none
  | kv :: ps, k =>
    match lastValue? ps k with
    | some v => some v
    | none => if kv.1 = k then some kv.2 else none

/-- `self.capsules = dict([[path.split('/')[-1], path] for path in paths])`,
shared verbatim by both backends' `FileParser.__enter__`. -/
def capsulesOf (paths : List Str) : List (Str × Str) :=
  dictOfPairs (paths.map (fun p => (basename p, p)))

/-! ## Optical-image backend (`extractors/lenovo_iso.py`) -/

/-- The little-endian 32-bit `lba_start` fields of the four entries of the
classical MBR partition table that kaitai's `MbrPartitionTable` parses out of
the El Torito boot image.  Only these four fields are consulted. -/
structure MbrPartitionTable where
  lba0 : Nat
  lba1 : Nat
  lba2 : Nat
  lba3 : Nat
  deriving DecidableEq

/-- `LBA_BLOCK_SIZE = 512`. -/
def LBA_BLOCK_SIZE : Nat := 512

/-- The partition-validation and payload-slicing part of
`lenovo_iso.FileParser.__enter__`: raise `ValueError` unless partition 0 has a
non-zero `lba_start` and partitions 1..3 all have a zero `lba_start`;
otherwise seek the boot image to `lba_start * 512` and read to the end. -/
def isoPartitionPayload (mbr : MbrPartitionTable) (bootImage : List Nat) :
    Except String (List Nat) :=
  if mbr.lba0 = 0 ∨ (mbr.lba1 ≠ 0 ∨ mbr.lba2 ≠ 0 ∨ mbr.lba3 ≠ 0) then
    .error "ValueError: first partition empty or more partitions populated"
  else
    .ok (bootImage.drop (mbr.lba0 * LBA_BLOCK_SIZE))

/-- One entry of the `FLASH` directory iterator of the mounted FAT volume:
its (long-name-resolved) name, whether it is a directory, and — when it is a
directory — the (long-name-resolved) names its own iterator yields. -/
structure FatDirEntry where
  name : Str
  isDir : Bool
  files : List Str
  deriving DecidableEq

/-- The mounted FAT volume, modelled by what the enumeration consumes: the
iterator of its `FLASH` top-level directory. -/
structure FatVolume where
  flash : List FatDirEntry
  deriving DecidableEq

/-- `volume.opendir('FLASH/' + d).iterator()`: the listing of subdirectory
`d` of `FLASH` (first entry of that name; a name FAT keeps unique). -/
def subdirListing (v : FatVolume) (d : Str) : List Str :=
  match v.flash.find? (fun e => e.name = d) with
  | some e => e.files
  | none => []

/-- `lenovo_iso._find_candidate_capsules`: collect the directory entries of
`FLASH`, skip `.` and `..`, keep every file name of each subdirectory that
`re.search(r'\.FL\d+', ...)` accepts, join into `FLASH/<d>/<f>` paths, and
sort the result. -/
def isoCandidates (v : FatVolume) : List Str :=
  List.insertionSort (fun a b => strLe a b)
    (((v.flash.filter (fun e => e.isDir)).map (fun e => e.name)).flatMap (fun d =>
      if d = ".".toList ∨ d = "..".toList then []
      else ((subdirListing v d).filter (fun f => searchFL f)).map
        (fun f => joinPath ["FLASH".toList, d, f])))

/-- Spec-side: the full `(subdirectory, file name)` enumeration the backend
walks, before any capsule-name filtering. -/
def isoEnumPairs (v : FatVolume) : List (Str × Str) :=
  ((v.flash.filter (fun e => e.isDir)).map (fun e => e.name)).flatMap (fun d =>
    if d = ".".toList ∨ d = "..".toList then []
    else (subdirListing v d).map (fun f => (d, f)))

/-! ## Installer-archive backend (`extractors/lenovo_exe.py`) -/

/-- Python `line.split()`: split on whitespace runs, dropping empty pieces. -/
def pySplitWs (l : Str) : List Str :=
  (List.splitOnP (fun c => c.isWhitespace) l).filter (fun w => w ≠ [])

/-- `line.split()[1][1:-1]`: the second whitespace-delimited token of an
`innoextract -l` output line, stripped of its surrounding quote characters.
`none` when the line splits to fewer than two tokens — there `line.split()[1]`
raises `IndexError` in the Python code. -/
def extractToken? (l : Str) : Option Str :=
  match pySplitWs l with
  | _ :: t :: _ => some ((t.drop 1).dropLast)
  | _ => none

/-- `lenovo_exe._find_candidate_capsules`: walk the `innoextract -l` output
lines in order; a line that `re.search(r'\.FL\d+', ...)` accepts (the whole
line, not just the path token) contributes its quoted path token — unless it
has fewer than two whitespace tokens, in which case `line.split()[1]` raises
`IndexError` and the whole enumeration fails with nothing listed. -/
def exeCandidates : List Str → Except Unit (List Str)
  | [] => .ok []
  | l :: ls =>
    if searchFL l then
      match extractToken? l with
      | none => .error ()
      | some t =>
        match exeCandidates ls with
        | .ok ts => .ok (t :: ts)
        | .error e => .error e
    else exeCandidates ls

/-! ## Capsule handles and `FileParser.open`

Stream positions are made explicit; `read()` is always called with the
default `size=-1` by the orchestrator, so only the read-to-exhaustion form is
modelled. -/

/-- A file of the mounted FAT volume: its content and the size recorded in
its directory entry (`File.filesize`). -/
structure FatFile where
  data : List Nat
  filesize : Nat
  deriving DecidableEq

/-- The open-by-path view of the mounted FAT volume used by
`LenovoISOCapsule`: `volume.open(path)`. -/
abbrev FatPathMap := List (Str × FatFile)

/-- The state `lenovo_iso.FileParser` carries after `__enter__`: the mounted
volume and the capsule-name dictionary. -/
structure IsoFileParser where
  volume : FatPathMap
  capsules : List (Str × Str)

/-- A `LenovoISOCapsule` as returned by `FileParser.open`, before its own
`__enter__` ran: the volume handle and the capsule path. -/
structure IsoCapsuleDesc where
  volume : FatPathMap
  capsulePath : Str

/-- A `LenovoISOCapsule` after `__enter__`: `capsule_handle` is an open file
with an explicit position. -/
structure IsoHandle where
  volume : FatPathMap
  capsulePath : Str
  file : FatFile
  pos : Nat

/-- `lenovo_iso.FileParser.list_capsules`: the dict keys in insertion order. -/
def listCapsulesIso (p : IsoFileParser) : List Str := p.capsules.map Prod.fst

/-- `lenovo_iso.FileParser.open`: `KeyError` when the name is absent from the
dict, otherwise a `LenovoISOCapsule` over the stored full path.  The parser
state is returned unchanged: the method performs no mutation. -/
def isoOpen (p : IsoFileParser) (name : Str) :
    Except String IsoCapsuleDesc × IsoFileParser :=
  match dictLookup p.capsules name with
  | none => (.error "KeyError: no available capsule with that name", p)
  | some path => (.ok ⟨p.volume, path⟩, p)

/-- `LenovoISOCapsule.__enter__`: `self.capsule_handle = volume.open(path)`. -/
def isoEnter (d : IsoCapsuleDesc) : Option IsoHandle :=
  (dictLookup d.volume d.capsulePath).map (fun fl => ⟨d.volume, d.capsulePath, fl, 0⟩)

/-- `LenovoISOCapsule.read()`: read the open handle to exhaustion from its
current position. -/
def isoRead (h : IsoHandle) : List Nat × IsoHandle :=
  (h.file.data.drop h.pos, { h with pos := h.file.data.length })

/-- `LenovoISOCapsule.size()`: open the path again on the volume, return the
directory entry's `filesize`, close that separate file object. The handle's
own position is untouched. -/
def isoSize (h : IsoHandle) : Option Nat × IsoHandle :=
  ((dictLookup h.volume h.capsulePath).map FatFile.filesize, h)

/-- Well-formedness check on an `IsoFileParser`, Boolean so that concrete
instances evaluate: each stored capsule path opens on the volume, and the FAT
directory entry's `filesize` agrees with the file's content length (an
invariant of the external FAT driver). -/
def isoWfB (p : IsoFileParser) : Bool :=
  p.capsules.all fun pr =>
    match dictLookup p.volume pr.2 with
    | some fl => fl.filesize = fl.data.length
    | none => false

/-- The state `lenovo_exe.FileParser` carries after `__enter__`: the capsule
dictionary, and the archive content that `innoextract -I <path>` extraction
will produce for each internal path. -/
structure ExeFileParser where
  capsules : List (Str × Str)
  archive : List (Str × List Nat)

/-- A `LenovoExeCapsule` as returned by `FileParser.open`, before extraction. -/
structure ExeCapsuleDesc where
  capsulePath : Str

/-- A `LenovoExeCapsule` after `__enter__`: an open handle on the freshly
extracted temporary file, with an explicit position. -/
structure ExeHandle where
  data : List Nat
  pos : Nat

/-- `lenovo_exe.FileParser.list_capsules`. -/
def listCapsulesExe (p : ExeFileParser) : List Str := p.capsules.map Prod.fst

/-- `lenovo_exe.FileParser.open`: `KeyError` when the name is absent,
otherwise a `LenovoExeCapsule` over the stored archive path; no mutation. -/
def exeOpen (p : ExeFileParser) (name : Str) :
    Except String ExeCapsuleDesc × ExeFileParser :=
  match dictLookup p.capsules name with
  | none => (.error "KeyError: no available capsule with that name", p)
  | some path => (.ok ⟨path⟩, p)

/-- `LenovoExeCapsule.__enter__`: extract the one entry to the temporary
directory and open the resulting file at position 0. -/
def exeEnter (archive : List (Str × List Nat)) (d : ExeCapsuleDesc) : Option ExeHandle :=
  (dictLookup archive d.capsulePath).map (fun b => ⟨b, 0⟩)

/-- `LenovoExeCapsule.read()`: read to exhaustion from the current position. -/
def exeRead (h : ExeHandle) : List Nat × ExeHandle :=
  (h.data.drop h.pos, { h with pos := h.data.length })

/-- `LenovoExeCapsule.size()`: `seek(0, 2)`, `tell()`, then `seek(0)` — the
size is the end offset and the handle is left rewound to offset 0. -/
def exeSize (h : ExeHandle) : Nat × ExeHandle :=
  (h.data.length, { h with pos := 0 })

/-- Well-formedness check on an `ExeFileParser`: each stored capsule path is
extractable from the archive. -/
def exeWfB (p : ExeFileParser) : Bool :=
  p.capsules.all fun pr => (dictLookup p.archive pr.2).isSome

/-! ## Firmware tree search (`uefi-extract.py`)

The firmware object tree the external `uefi_firmware` parser produces.  The
type tag is the closed set the search code consults: `find_file_by_guid`
tests `obj.get('type', '') == 'FirmwareFile'` (tag `File` here) and
`find_PE32` tests `attrs['type'] == 16`, i.e. a PE32 image section (tag
`Image` here).  `guid` models `obj.get('guid', '')` (empty when absent) and
`payload` models the `data` attribute. -/

inductive FirmwareType where
  | Volume
  | FileSystemElement
  | File
  | Section
  | Image
  deriving DecidableEq

inductive FirmwareObject where
  | node (type : FirmwareType) (guid : Str) (payload : List Nat)
      (children : List FirmwareObject)

def FirmwareObject.type : FirmwareObject → FirmwareType
  | .node t _ _ _ => t

def FirmwareObject.guid : FirmwareObject → Str
  | .node _ g _ _ => g

def FirmwareObject.payload : FirmwareObject → List Nat
  | .node _ _ p _ => p

def FirmwareObject.children : FirmwareObject → List FirmwareObject
  | .node _ _ _ cs => cs

mutual
/-- `find_file_by_guid_core`: walk the children reported by
`iterate_objects()`; for each child, record it when it is a `FirmwareFile`
whose GUID is in `guids`, then recurse into it.  The root object itself is
never tested. -/
def find_file_by_guid_core : FirmwareObject → List Str → List (Str × FirmwareObject)
  | .node _ _ _ cs, guids => ffbgChildren cs guids

/-- The `for obj in firmware_tree.iterate_objects()` loop body of
`find_file_by_guid_core`. -/
def ffbgChildren : List FirmwareObject → List Str → List (Str × FirmwareObject)
  | [], _ => []
  | c :: cs, guids =>
    (if c.type = .File ∧ c.guid ∈ guids then [(c.guid, c)] else []) ++
      find_file_by_guid_core c guids ++ ffbgChildren cs guids
end

/-- `find_file_by_guid`: force the caller-supplied GUIDs to lowercase, then
run the core walk. -/
def find_file_by_guid (t : FirmwareObject) (guids : List Str) :
    List (Str × FirmwareObject) :=
  find_file_by_guid_core t (guids.map lowerStr)

mutual
/-- `find_PE32`: a node whose type is PE32 image is returned alone, without
descending into it; otherwise recurse into each child in order. -/
def find_PE32 : FirmwareObject → List FirmwareObject
  | .node ty g p cs =>
    if ty = .Image then [.node ty g p cs] else findPE32Children cs

/-- The `for obj in firmware_tree.iterate_objects()` loop of `find_PE32`. -/
def findPE32Children : List FirmwareObject → List FirmwareObject
  | [] => []
  | c :: cs => find_PE32 c ++ findPE32Children cs
end

/-- The `pes` dict update of `find_PEs`: `pes.setdefault(guid, []).extend(v)`
in effect — extend in place, or append a fresh key with the list. -/
def pesInsertExtend (m : List (Str × List FirmwareObject)) (k : Str)
    (v : List FirmwareObject) : List (Str × List FirmwareObject) :=
  if containsKey m k then
    m.map (fun kv => if kv.1 = k then (kv.1, kv.2 ++ v) else kv)
  else
    m ++ [(k, v)]

/-- `find_PEs`, from the parsed firmware tree on (format auto-detection and
binary parsing are the external `uefi_firmware` capability): find the
GUID-matching files; raise `FileNotFoundError` when there are none; else
fold their `find_PE32` results into the `pes` dict. -/
def find_PEs (firmware : FirmwareObject) (guids : List Str) :
    Except Unit (List (Str × List FirmwareObject)) :=
  if (find_file_by_guid firmware guids).length = 0 then .error ()
  else
    .ok ((find_file_by_guid firmware guids).foldl
      (fun m gf => pesInsertExtend m gf.1 (find_PE32 gf.2)) [])

/-! ## Spec-side tree vocabulary -/

mutual
/-- The strict descendants of a node, in pre-order, children in their
original order. -/
def descendants : FirmwareObject → List FirmwareObject
  | .node _ _ _ cs => descendantsChildren cs

def descendantsChildren : List FirmwareObject → List FirmwareObject
  | [] => []
  | c :: cs => c :: descendants c ++ descendantsChildren cs
end

/-- Every node of the tree (root included), in pre-order. -/
def allNodes (t : FirmwareObject) : List FirmwareObject := t :: descendants t

mutual
/-- Spec-side: every node of the tree whose type tag is `Image`, in
pre-order, nested `Image` nodes included. -/
def allImages : FirmwareObject → List FirmwareObject
  | .node ty g p cs =>
    (if ty = .Image then [.node ty g p cs] else []) ++ allImagesChildren cs

def allImagesChildren : List FirmwareObject → List FirmwareObject
  | [] => []
  | c :: cs => allImages c ++ allImagesChildren cs
end

mutual
/-- The pre-order node list, each node paired with a flag telling whether it
has a strict ancestor (within the traversal root) whose type tag is `Image`. -/
def preorderAnc (b : Bool) : FirmwareObject → List (Bool × FirmwareObject)
  | .node ty g p cs =>
    (b, .node ty g p cs) :: preorderAncChildren (b || ty = .Image) cs

def preorderAncChildren (b : Bool) : List FirmwareObject → List (Bool × FirmwareObject)
  | [] => []
  | c :: cs => preorderAnc b c ++ preorderAncChildren b cs
end

/-! ## Concrete objects used by counterexamples and witnesses -/

/-- A FAT volume whose `FLASH/SUB` directory holds a file name in which
`\.FL\d+` occurs but not as a suffix. -/
def vCounter : FatVolume := ⟨[⟨"SUB".toList, true, ["A.FL1X".toList]⟩]⟩

/-- A tree whose only File child carries an upper-case GUID. -/
def tUp : FirmwareObject := .node .Volume [] [] [.node .File ['A'] [] []]

/-- The same tree with the GUID lower-cased. -/
def tLo : FirmwareObject := .node .Volume [] [] [.node .File ['a'] [] []]

/-- A File node under which an Image node nests inside another Image node. -/
def fileNest : FirmwareObject :=
  .node .File ['f'] [] [.node .Image ['o'] [1] [.node .Image ['i'] [2] []]]

/-- A File node with no Image descendant. -/
def fileNoImages : FirmwareObject :=
  .node .File ['f'] [] [.node .Section [] [] []]

/-- A File node carrying GUID `a` with one Image child. -/
def file0 : FirmwareObject :=
  .node .File ['a'] [] [.node .Image ['x'] [9, 9] []]

/-- A volume + file + image tree used by several witnesses. -/
def tree0 : FirmwareObject := .node .Volume [] [] [file0]

/-- A small optical-image parser state used by witnesses. -/
def isoP0 : IsoFileParser :=
  ⟨[("FLASH/SUB/B.FL1".toList, ⟨[7, 7], 2⟩)],
   [("B.FL1".toList, "FLASH/SUB/B.FL1".toList)]⟩

/-- A small installer-archive parser state used by witnesses. -/
def exeP0 : ExeFileParser :=
  ⟨[("B.FL1".toList, "app/B.FL1".toList)],
   [("app/B.FL1".toList, [1, 2, 3])]⟩

/-- Two candidate paths sharing one basename. -/
def dupPaths : List Str := ["FLASH/A/B.FL1".toList, "FLASH/C/B.FL1".toList]

/-! ## Dictionary lemmas -/

theorem containsKey_iff {α : Type} (m : List (Str × α)) (k : Str) :
    containsKey m k = true ↔ k ∈ m.map Prod.fst := by
  induction m with
  | nil => simp [containsKey]
  | cons kv m ih =>
    simp only [containsKey, List.any_cons, List.map_cons, List.mem_cons] at *
    constructor
    · intro h
      rcases Bool.or_eq_true_iff.1 h with h | h
      · exact Or.inl (of_decide_eq_true h).symm
      · exact Or.inr (ih.1 h)
    · intro h
      rcases h with h | h
      · exact Bool.or_eq_true_iff.2 (Or.inl (decide_eq_true h.symm))
      · exact Bool.or_eq_true_iff.2 (Or.inr (ih.2 h))

theorem dictLookup_eq_none {α : Type} (m : List (Str × α)) (k : Str) :
    dictLookup m k = none ↔ k ∉ m.map Prod.fst := by
  induction m with
  | nil => simp [dictLookup]
  | cons kv m ih =>
    by_cases h : kv.1 = k
    · rw [dictLookup, if_pos h, List.map_cons]
      constructor
      · intro hnone
        exact absurd hnone (Option.some_ne_none _)
      · intro hmem
        exact absurd (List.mem_cons.2 (Or.inl h.symm)) hmem
    · rw [dictLookup, if_neg h, List.map_cons]
      constructor
      · intro hnone hmem
        rcases List.mem_cons.1 hmem with hh | hh
        · exact h hh.symm
        · exact (ih.1 hnone) hh
      · intro hmem
        exact ih.2 (fun hh => hmem (List.mem_cons.2 (Or.inr hh)))

theorem dictLookup_mem {α : Type} (m : List (Str × α)) (k : Str)
    (hk : k ∈ m.map Prod.fst) : ∃ v, dictLookup m k = some v ∧ (k, v) ∈ m := by
  induction m with
  | nil => simp at hk
  | cons kv m ih =>
    by_cases h : kv.1 = k
    · exact ⟨kv.2, by simp [dictLookup, h], by simp [← h]⟩
    · simp only [List.map_cons, List.mem_cons] at hk
      rcases hk with hk | hk
      · exact absurd hk.symm h
      · rcases ih hk with ⟨v, hv, hmem⟩
        exact ⟨v, by simp [dictLookup, h, hv], List.mem_cons_of_mem _ hmem⟩

theorem map_fst_dictInsert {α : Type} (m : List (Str × α)) (k : Str) (v : α) :
    (dictInsert m k v).map Prod.fst =
      if containsKey m k then m.map Prod.fst else m.map Prod.fst ++ [k] := by
  unfold dictInsert
  split
  · rw [List.map_map]
    exact List.map_congr_left (fun kv _ => by by_cases h : kv.1 = k <;> simp [h])
  · simp

theorem mem_keys_dictInsert {α : Type} (m : List (Str × α)) (k : Str) (v : α)
    (x : Str) : x ∈ (dictInsert m k v).map Prod.fst ↔ x ∈ m.map Prod.fst ∨ x = k := by
  rw [map_fst_dictInsert]
  by_cases h : containsKey m k = true
  · rw [if_pos h]
    constructor
    · exact Or.inl
    · intro hx
      rcases hx with hx | hx
      · exact hx
      · exact hx ▸ (containsKey_iff m k).1 h
  · rw [if_neg h]
    rw [List.mem_append, List.mem_singleton]

theorem nodup_keys_dictInsert {α : Type} (m : List (Str × α)) (k : Str) (v : α)
    (hm : (m.map Prod.fst).Nodup) : ((dictInsert m k v).map Prod.fst).Nodup := by
  rw [map_fst_dictInsert]
  by_cases h : containsKey m k = true
  · rw [if_pos h]; exact hm
  · rw [if_neg h]
    have hk : k ∉ m.map Prod.fst := fun hmem =>
      h ((containsKey_iff m k).2 hmem)
    simp [List.nodup_append, hm, hk]

theorem dictLookup_map_update_self {α : Type} (m : List (Str × α)) (k : Str)
    (f : α → α) (hk : k ∈ m.map Prod.fst) :
    dictLookup (m.map (fun kv => if kv.1 = k then (kv.1, f kv.2) else kv)) k =
      (dictLookup m k).map f := by
  induction m with
  | nil => simp at hk
  | cons kv m ih =>
    by_cases h : kv.1 = k
    · rw [List.map_cons, if_pos h, dictLookup, dictLookup]
      simp [h]
    · rw [List.map_cons, if_neg h, dictLookup, dictLookup, if_neg h, if_neg h]
      apply ih
      simp only [List.map_cons, List.mem_cons] at hk
      rcases hk with hk | hk
      · exact absurd hk.symm h
      · exact hk

theorem dictLookup_map_update_ne {α : Type} (m : List (Str × α)) (k : Str)
    (f : α → α) (x : Str) (hx : x ≠ k) :
    dictLookup (m.map (fun kv => if kv.1 = k then (kv.1, f kv.2) else kv)) x =
      dictLookup m x := by
  induction m with
  | nil => rfl
  | cons kv m ih =>
    by_cases h : kv.1 = k
    · rw [List.map_cons, if_pos h, dictLookup, dictLookup]
      have hne : ¬ kv.1 = x := fun hh => hx (hh ▸ h.symm ▸ rfl)
      rw [if_neg hne, if_neg hne, ih]
    · rw [List.map_cons, if_neg h, dictLookup, dictLookup, ih]

theorem dictLookup_append_right {α : Type} (m l : List (Str × α)) (k : Str)
    (hk : k ∉ m.map Prod.fst) : dictLookup (m ++ l) k = dictLookup l k := by
  induction m with
  | nil => rfl
  | cons kv m ih =>
    simp only [List.map_cons, List.mem_cons] at hk
    push_neg at hk
    rw [List.cons_append, dictLookup, if_neg (fun hh => hk.1 hh.symm)]
    exact ih hk.2

theorem dictLookup_append_single_ne {α : Type} (m : List (Str × α)) (k : Str)
    (v : α) (x : Str) (hx : x ≠ k) :
    dictLookup (m ++ [(k, v)]) x = dictLookup m x := by
  induction m with
  | nil =>
    rw [List.nil_append]
    show dictLookup [(k, v)] x = none
    rw [dictLookup, if_neg (fun hh => hx hh.symm)]
    rfl
  | cons kv m ih =>
    rw [List.cons_append, dictLookup, dictLookup, ih]

theorem dictLookup_dictInsert_self {α : Type} (m : List (Str × α)) (k : Str)
    (v : α) : dictLookup (dictInsert m k v) k = some v := by
  by_cases h : containsKey m k = true
  · rw [dictInsert, if_pos h]
    have hk := (containsKey_iff m k).1 h
    have hupd := dictLookup_map_update_self m k (fun _ => v) hk
    rcases dictLookup_mem m k hk with ⟨w, hw, -⟩
    rw [hw] at hupd
    simpa using hupd
  · rw [dictInsert, if_neg h]
    rw [dictLookup_append_right m [(k, v)] k
      (fun hmem => h ((containsKey_iff m k).2 hmem))]
    rw [dictLookup, if_pos rfl]

theorem dictLookup_dictInsert_ne {α : Type} (m : List (Str × α)) (k : Str)
    (v : α) (x : Str) (hx : x ≠ k) :
    dictLookup (dictInsert m k v) x = dictLookup m x := by
  by_cases h : containsKey m k = true
  · rw [dictInsert, if_pos h]
    have hupd := dictLookup_map_update_ne m k (fun _ => v) x hx
    simpa using hupd
  · rw [dictInsert, if_neg h]
    exact dictLookup_append_single_ne m k v x hx

theorem dictLookup_foldl_none {α : Type} (ps : List (Str × α)) (k : Str) :
    ∀ m, lastValue? ps k = none →
      dictLookup (ps.foldl (fun m kv => dictInsert m kv.1 kv.2) m) k = dictLookup m k := by
  induction ps with
  | nil => intro m _; rfl
  | cons p ps ih =>
    intro m hnone
    rw [lastValue?] at hnone
    cases h2 : lastValue? ps k with
    | some w => rw [h2] at hnone; exact absurd hnone (by simp)
    | none =>
      rw [h2] at hnone
      have hp : ¬ p.1 = k := by
        intro hh
        rw [if_pos hh] at hnone
        exact Option.some_ne_none _ hnone
      rw [List.foldl_cons, ih _ h2,
        dictLookup_dictInsert_ne _ _ _ _ (fun hh => hp hh.symm)]

theorem dictLookup_foldl_some {α : Type} (ps : List (Str × α)) (k : Str) (v : α) :
    ∀ m, lastValue? ps k = some v →
      dictLookup (ps.foldl (fun m kv => dictInsert m kv.1 kv.2) m) k = some v := by
  induction ps with
  | nil => intro m h; exact absurd h (by rw [lastValue?]; simp)
  | cons p ps ih =>
    intro m hsome
    rw [lastValue?] at hsome
    cases h2 : lastValue? ps k with
    | some w =>
      rw [h2] at hsome
      rw [List.foldl_cons]
      have hv : w = v := Option.some.inj hsome
      rw [hv] at h2
      exact ih _ h2
    | none =>
      rw [h2] at hsome
      by_cases hp : p.1 = k
      · rw [if_pos hp] at hsome
        rw [List.foldl_cons, dictLookup_foldl_none ps k _ h2, ← hp,
          dictLookup_dictInsert_self]
        exact hsome
      · rw [if_neg hp] at hsome
        exact absurd hsome (by simp)

theorem nodup_keys_foldl {α : Type} (ps : List (Str × α)) :
    ∀ m : List (Str × α), (m.map Prod.fst).Nodup →
      ((ps.foldl (fun m kv => dictInsert m kv.1 kv.2) m).map Prod.fst).Nodup := by
  induction ps with
  | nil => intro m hm; exact hm
  | cons p ps ih =>
    intro m hm
    rw [List.foldl_cons]
    exact ih _ (nodup_keys_dictInsert m p.1 p.2 hm)

theorem mem_keys_foldl {α : Type} (ps : List (Str × α)) (x : Str) :
    ∀ m : List (Str × α),
      (x ∈ (ps.foldl (fun m kv => dictInsert m kv.1 kv.2) m).map Prod.fst ↔
        x ∈ m.map Prod.fst ∨ x ∈ ps.map Prod.fst) := by
  induction ps with
  | nil => intro m; exact (or_iff_left (List.not_mem_nil x)).symm
  | cons p ps ih =>
    intro m
    rw [List.foldl_cons, ih, mem_keys_dictInsert, List.map_cons, List.mem_cons]
    tauto

theorem nodup_keys_dictOfPairs {α : Type} (ps : List (Str × α)) :
    ((dictOfPairs ps).map Prod.fst).Nodup :=
  nodup_keys_foldl ps [] (by constructor)

theorem mem_keys_dictOfPairs {α : Type} (ps : List (Str × α)) (x : Str) :
    x ∈ (dictOfPairs ps).map Prod.fst ↔ x ∈ ps.map Prod.fst := by
  rw [dictOfPairs, mem_keys_foldl]
  exact or_iff_right (List.not_mem_nil x)

theorem dictLookup_dictOfPairs {α : Type} (ps : List (Str × α)) (k : Str) :
    dictLookup (dictOfPairs ps) k = lastValue? ps k := by
  rw [dictOfPairs]
  cases h : lastValue? ps k with
  | some v => exact dictLookup_foldl_some ps k v [] h
  | none => exact dictLookup_foldl_none ps k [] h

/-! ## Firmware-tree lemmas -/

mutual
theorem ffbg_core_eq (gs : List Str) : ∀ t : FirmwareObject,
    find_file_by_guid_core t gs =
      ((descendants t).filter
        (fun n => n.type = FirmwareType.File ∧ n.guid ∈ gs)).map
        (fun n => (n.guid, n))
  | .node _ _ _ cs => by
    rw [find_file_by_guid_core, descendants]
    exact ffbg_children_eq gs cs

theorem ffbg_children_eq (gs : List Str) : ∀ cs : List FirmwareObject,
    ffbgChildren cs gs =
      ((descendantsChildren cs).filter
        (fun n => n.type = FirmwareType.File ∧ n.guid ∈ gs)).map
        (fun n => (n.guid, n))
  | [] => rfl
  | c :: cs => by
    rw [ffbgChildren, descendantsChildren]
    by_cases h : c.type = FirmwareType.File ∧ c.guid ∈ gs
    · simp [List.filter_cons, List.filter_append, h,
        ffbg_core_eq gs c, ffbg_children_eq gs cs]
    · simp [List.filter_cons, List.filter_append, h,
        ffbg_core_eq gs c, ffbg_children_eq gs cs]
end

mutual
theorem preorderAnc_flag_true : ∀ t : FirmwareObject,
    ∀ pr ∈ preorderAnc true t, pr.1 = true
  | .node ty g p cs => by
    intro pr hpr
    rw [preorderAnc] at hpr
    rcases List.mem_cons.1 hpr with h | h
    · rw [h]
    · exact preorderAncChildren_flag_true cs pr (by simpa using h)

theorem preorderAncChildren_flag_true : ∀ cs : List FirmwareObject,
    ∀ pr ∈ preorderAncChildren true cs, pr.1 = true
  | [] => by
    intro pr hpr
    rw [preorderAncChildren] at hpr
    exact absurd hpr (List.not_mem_nil pr)
  | c :: cs => by
    intro pr hpr
    rw [preorderAncChildren] at hpr
    rcases List.mem_append.1 hpr with h | h
    · exact preorderAnc_flag_true c pr h
    · exact preorderAncChildren_flag_true cs pr h
end

mutual
theorem find_PE32_eq_nonNested : ∀ t : FirmwareObject,
    find_PE32 t =
      ((preorderAnc false t).filter
        (fun pr => !pr.1 && decide (pr.2.type = FirmwareType.Image))).map Prod.snd
  | .node ty g p cs => by
    by_cases h : ty = FirmwareType.Image
    · subst h
      simp [find_PE32, preorderAnc, FirmwareObject.type, List.filter_cons]
      intro b hb
      exact (Bool.false_ne_true (preorderAncChildren_flag_true cs (false, b) hb)).elim
    · simp [find_PE32, preorderAnc, FirmwareObject.type, h, List.filter_cons,
        findPE32Children_eq_nonNested cs]

theorem findPE32Children_eq_nonNested : ∀ cs : List FirmwareObject,
    findPE32Children cs =
      ((preorderAncChildren false cs).filter
        (fun pr => !pr.1 && decide (pr.2.type = FirmwareType.Image))).map Prod.snd
  | [] => rfl
  | c :: cs => by
    rw [findPE32Children, preorderAncChildren, List.filter_append, List.map_append,
      find_PE32_eq_nonNested c, findPE32Children_eq_nonNested cs]
end

mutual
theorem find_PE32_eq_nil : ∀ t : FirmwareObject,
    allImages t = [] → find_PE32 t = []
  | .node ty g p cs => by
    intro habs
    rw [allImages] at habs
    by_cases h : ty = FirmwareType.Image
    · rw [if_pos h] at habs
      exact absurd habs (by simp)
    · rw [if_neg h, List.nil_append] at habs
      rw [find_PE32, if_neg h]
      exact findPE32Children_eq_nil cs habs

theorem findPE32Children_eq_nil : ∀ cs : List FirmwareObject,
    allImagesChildren cs = [] → findPE32Children cs = []
  | [] => fun _ => rfl
  | c :: cs => by
    intro habs
    rw [allImagesChildren] at habs
    rcases List.append_eq_nil.1 habs with ⟨h1, h2⟩
    rw [findPE32Children, find_PE32_eq_nil c h1, findPE32Children_eq_nil cs h2]
    rfl
end

theorem pesInsertExtend_ne_nil (m : List (Str × List FirmwareObject)) (k : Str)
    (v : List FirmwareObject) : pesInsertExtend m k v ≠ [] := by
  rw [pesInsertExtend]
  by_cases h : containsKey m k = true
  · rw [if_pos h]
    intro habs
    rw [List.map_eq_nil_iff] at habs
    rw [habs] at h
    simp [containsKey] at h
  · rw [if_neg h]
    intro habs
    exact absurd (List.append_eq_nil.1 habs).2 (by simp)

theorem pesFold_ne_nil (fs : List (Str × FirmwareObject)) :
    ∀ m, m ≠ [] →
      fs.foldl (fun m gf => pesInsertExtend m gf.1 (find_PE32 gf.2)) m ≠ [] := by
  induction fs with
  | nil => intro m hm; exact hm
  | cons f fs ih =>
    intro m _
    rw [List.foldl_cons]
    exact ih _ (pesInsertExtend_ne_nil m f.1 _)

/-! ## Enumeration lemmas -/

theorem iso_filter_enum (v : FatVolume) : ∀ sd : List Str,
    (sd.flatMap (fun d =>
      if d = ".".toList ∨ d = "..".toList then []
      else ((subdirListing v d).filter (fun f => searchFL f)).map
        (fun f => joinPath ["FLASH".toList, d, f])))
    = ((sd.flatMap (fun d =>
        if d = ".".toList ∨ d = "..".toList then []
        else (subdirListing v d).map (fun f => (d, f)))).filter
          (fun pr => searchFL pr.2)).map
        (fun pr => joinPath ["FLASH".toList, pr.1, pr.2]) := by
  intro sd
  induction sd with
  | nil => rfl
  | cons d sd ih =>
    rw [List.flatMap_cons, List.flatMap_cons, List.filter_append, List.map_append, ih]
    congr 1
    by_cases hd : d = ".".toList ∨ d = "..".toList
    · rw [if_pos hd, if_pos hd]
      rfl
    · rw [if_neg hd, if_neg hd, List.filter_map, List.map_map]
      rfl

theorem exeCandidates_error_iff (lines : List Str) :
    exeCandidates lines = .error () ↔
      ∃ l ∈ lines, searchFL l = true ∧ extractToken? l = none := by
  induction lines with
  | nil => simp [exeCandidates]
  | cons l ls ih =>
    rw [exeCandidates]
    by_cases hs : searchFL l = true
    · rw [if_pos hs]
      cases he : extractToken? l with
      | none =>
        apply iff_of_true rfl
        exact ⟨l, List.mem_cons_self l ls, hs, he⟩
      | some t =>
        cases hr : exeCandidates ls with
        | ok ts =>
          apply iff_of_false
          · intro habs
            exact Except.noConfusion habs
          · rintro ⟨w, hw, hws, hwe⟩
            rcases List.mem_cons.1 hw with rfl | hw
            · rw [he] at hwe
              exact Option.noConfusion hwe
            · rw [hr] at ih
              exact Except.noConfusion (ih.2 ⟨w, hw, hws, hwe⟩)
        | error e =>
          apply iff_of_true rfl
          rw [hr] at ih
          rcases ih.1 rfl with ⟨w, hw, hws, hwe⟩
          exact ⟨w, List.mem_cons_of_mem l hw, hws, hwe⟩
    · rw [if_neg hs, ih]
      constructor
      · rintro ⟨w, hw, hws, hwe⟩
        exact ⟨w, List.mem_cons_of_mem l hw, hws, hwe⟩
      · rintro ⟨w, hw, hws, hwe⟩
        rcases List.mem_cons.1 hw with rfl | hw
        · exact absurd hws hs
        · exact ⟨w, hw, hws, hwe⟩

theorem exeCandidates_ok_eq (lines : List Str) :
    ∀ ts, exeCandidates lines = .ok ts →
      ts = (lines.filter (fun l => searchFL l)).filterMap extractToken? := by
  induction lines with
  | nil =>
    intro ts h
    rw [← Except.ok.inj h]
    rfl
  | cons l ls ih =>
    intro ts h
    rw [exeCandidates] at h
    by_cases hs : searchFL l = true
    · rw [if_pos hs] at h
      cases he : extractToken? l with
      | none =>
        rw [he] at h
        exact Except.noConfusion h
      | some t =>
        rw [he] at h
        cases hr : exeCandidates ls with
        | error e =>
          rw [hr] at h
          exact Except.noConfusion h
        | ok ts2 =>
          rw [hr] at h
          rw [List.filter_cons, if_pos hs, List.filterMap_cons, he,
            ← Except.ok.inj h, ih ts2 hr]
    · rw [if_neg hs] at h
      rw [List.filter_cons, if_neg hs]
      exact ih ts h

theorem count_eq_one_str (l : List Str) (k : Str) (hn : l.Nodup) (hk : k ∈ l) :
    l.count k = 1 := by
  induction l with
  | nil => exact absurd hk (List.not_mem_nil k)
  | cons a l ih =>
    rw [List.count_cons]
    rcases List.nodup_cons.1 hn with ⟨ha, hn2⟩
    rcases List.mem_cons.1 hk with rfl | hk2
    · rw [List.count_eq_zero.2 ha]
      simp
    · have hne : ¬ k = a := fun hh => ha (hh ▸ hk2)
      rw [ih hn2 hk2]
      simp [hne, Ne.symm hne]

/-! ## Claim theorems -/

/-- C1, counterexample: the path `FLASH/SUB/A.FL1X` is listed by the
optical-image enumeration although `\.FL\d+` is not a suffix of its final
path segment `A.FL1X` — the claim's "iff its final path segment matches the
pattern as a suffix" fails in the false-positive direction. -/
theorem c1_suffix_counterexample :
    joinPath ["FLASH".toList, "SUB".toList, "A.FL1X".toList] ∈ isoCandidates vCounter ∧
    basename (joinPath ["FLASH".toList, "SUB".toList, "A.FL1X".toList]) = "A.FL1X".toList ∧
    suffixFL "A.FL1X".toList = false := by
  decide

/-- C1, amended: an entry is listed iff `re.search(r'\.FL\d+', ...)` matches
*anywhere* (not as a suffix): the optical-image candidate list is exactly
(a sorted permutation of) the `FLASH/<d>/<f>` paths of the volume enumeration
whose file-name component `f` contains the pattern somewhere; the
installer-archive enumeration fails with `IndexError` iff some matching line
has fewer than two whitespace tokens, and otherwise lists exactly the
stripped path tokens of the lines in which the pattern occurs somewhere (in
the whole line), in listing order. -/
theorem c1_candidate_enumeration_amended :
    (∀ v : FatVolume,
      List.Perm (isoCandidates v)
        (((isoEnumPairs v).filter (fun pr => searchFL pr.2)).map
          (fun pr => joinPath ["FLASH".toList, pr.1, pr.2]))) ∧
    (∀ lines : List Str,
      (exeCandidates lines = .error () ↔
        ∃ l ∈ lines, searchFL l = true ∧ extractToken? l = none) ∧
      (∀ ts, exeCandidates lines = .ok ts →
        ts = (lines.filter (fun l => searchFL l)).filterMap extractToken?)) := by
  constructor
  · intro v
    rw [isoCandidates, isoEnumPairs, ← iso_filter_enum v]
    exact List.perm_insertionSort _ _
  · intro lines
    exact ⟨exeCandidates_error_iff lines, exeCandidates_ok_eq lines⟩

/-- C1, witness: a matching one-token line (`x.FL1` is its own whole line)
makes the installer-archive enumeration raise `IndexError`; a matching
two-plus-token listing line contributes its quoted path token stripped of the
quotes. -/
theorem c1_candidate_enumeration_amended_witness :
    exeCandidates ["x.FL1".toList] = .error () ∧
    ["app/B.FL1".toList] =
      (([" - \"app/B.FL1\" (1 B)".toList].filter (fun l => searchFL l)).filterMap
        extractToken?) :=
  ⟨(c1_candidate_enumeration_amended.2 ["x.FL1".toList]).1.2
      ⟨"x.FL1".toList, by decide, by decide, rfl⟩,
   (c1_candidate_enumeration_amended.2 [" - \"app/B.FL1\" (1 B)".toList]).2
      ["app/B.FL1".toList] rfl⟩

/-- C2, counterexample: two trees whose sole File node differs only in GUID
letter case give different results for the same target set — node GUIDs are
compared verbatim, only the caller-supplied targets are lowercased. -/
theorem c2_guid_case_counterexample :
    find_file_by_guid tUp [['a']] ≠ find_file_by_guid tLo [['a']] :=
  fun h => absurd (congrArg List.length h) (by decide)

/-- C2, amended: `find_file_by_guid` lowercases only the caller-supplied
GUIDs: a node is returned iff its type tag is File and its GUID, compared
verbatim, is in the lowercased target set; hence target sets equal after
lowercasing give identical results, but node-GUID letter case is
significant. -/
theorem c2_guid_matching_amended :
    (∀ (t : FirmwareObject) (gs : List Str),
      find_file_by_guid t gs =
        ((descendants t).filter
          (fun n => n.type = FirmwareType.File ∧ n.guid ∈ gs.map lowerStr)).map
          (fun n => (n.guid, n))) ∧
    (∀ (t : FirmwareObject) (gs1 gs2 : List Str),
      gs1.map lowerStr = gs2.map lowerStr →
        find_file_by_guid t gs1 = find_file_by_guid t gs2) := by
  constructor
  · intro t gs
    rw [find_file_by_guid]
    exact ffbg_core_eq (gs.map lowerStr) t
  · intro t gs1 gs2 h
    rw [find_file_by_guid, find_file_by_guid, h]

/-- C2, witness: an upper-case and a lower-case spelling of the same target
GUID produce identical search results. -/
theorem c2_guid_matching_witness :
    find_file_by_guid tLo [['A']] = find_file_by_guid tLo [['a']] :=
  c2_guid_matching_amended.2 tLo [['A']] [['a']] (by decide)

/-- C3: the partition table is accepted iff partition 0 has a non-zero LBA
start and partitions 1..3 are all zero; on success the payload is the boot
image from byte `lba_start * 512` to its end, on any other combination a
`ValueError` is raised. -/
theorem c3_partition_validation (mbr : MbrPartitionTable) (img : List Nat) :
    ((mbr.lba0 ≠ 0 ∧ mbr.lba1 = 0 ∧ mbr.lba2 = 0 ∧ mbr.lba3 = 0) →
      isoPartitionPayload mbr img = .ok (img.drop (mbr.lba0 * 512))) ∧
    (¬(mbr.lba0 ≠ 0 ∧ mbr.lba1 = 0 ∧ mbr.lba2 = 0 ∧ mbr.lba3 = 0) →
      isoPartitionPayload mbr img =
        .error "ValueError: first partition empty or more partitions populated") := by
  constructor
  · intro h
    rw [isoPartitionPayload, if_neg]
    · rfl
    · rintro (h0 | h1 | h2 | h3)
      · exact h.1 h0
      · exact h1 h.2.1
      · exact h2 h.2.2.1
      · exact h3 h.2.2.2
  · intro h
    rw [isoPartitionPayload, if_pos]
    tauto

/-- C3, witness: the accepted layout `(1, 0, 0, 0)` yields the payload
starting at byte 512. -/
theorem c3_partition_validation_witness :
    isoPartitionPayload ⟨1, 0, 0, 0⟩ [] = .ok (([] : List Nat).drop (1 * 512)) :=
  (c3_partition_validation ⟨1, 0, 0, 0⟩ []).1 (by decide)

/-- C4: on a tree whose root is not itself a File node (the external parser
roots trees at container objects), `find_PEs` raises `FileNotFoundError` iff
no File node of the tree matches a (lowercased) target GUID; when some File
node matches it returns normally, and a returned mapping is never empty. -/
theorem c4_notfound_iff (t : FirmwareObject) (gs : List Str)
    (hroot : t.type ≠ FirmwareType.File) :
    (find_PEs t gs = .error () ↔
      ¬ ∃ n ∈ allNodes t, n.type = FirmwareType.File ∧ n.guid ∈ gs.map lowerStr) ∧
    ((∃ n ∈ allNodes t, n.type = FirmwareType.File ∧ n.guid ∈ gs.map lowerStr) →
      ∃ m, find_PEs t gs = .ok m) ∧
    (∀ m, find_PEs t gs = .ok m → m ≠ []) := by
  have hchar : find_file_by_guid t gs =
      ((descendants t).filter
        (fun n => n.type = FirmwareType.File ∧ n.guid ∈ gs.map lowerStr)).map
        (fun n => (n.guid, n)) := by
    rw [find_file_by_guid]
    exact ffbg_core_eq (gs.map lowerStr) t
  have hnilIff : find_file_by_guid t gs = [] ↔
      ¬ ∃ n ∈ descendants t,
        n.type = FirmwareType.File ∧ n.guid ∈ gs.map lowerStr := by
    rw [hchar, List.map_eq_nil_iff, List.filter_eq_nil_iff]
    constructor
    · rintro hall ⟨n, hn, hpred⟩
      have h2 := hall n hn
      simp only [decide_eq_true_eq] at h2
      exact h2 hpred
    · intro hno n hn
      simp only [decide_eq_true_eq]
      exact fun hpred => hno ⟨n, hn, hpred⟩
  have hroot2 : ¬(t.type = FirmwareType.File ∧ t.guid ∈ gs.map lowerStr) :=
    fun hp => hroot hp.1
  have hlink : (∃ n ∈ allNodes t,
        n.type = FirmwareType.File ∧ n.guid ∈ gs.map lowerStr) ↔
      (∃ n ∈ descendants t,
        n.type = FirmwareType.File ∧ n.guid ∈ gs.map lowerStr) := by
    rw [allNodes]
    constructor
    · rintro ⟨n, hn, hp⟩
      rcases List.mem_cons.1 hn with rfl | hn
      · exact absurd hp hroot2
      · exact ⟨n, hn, hp⟩
    · rintro ⟨n, hn, hp⟩
      exact ⟨n, List.mem_cons_of_mem _ hn, hp⟩
  refine ⟨?_, ?_, ?_⟩
  · by_cases hlen : (find_file_by_guid t gs).length = 0
    · have hnil : find_file_by_guid t gs = [] := List.length_eq_zero.1 hlen
      apply iff_of_true
      · rw [find_PEs, if_pos hlen]
      · exact fun hex => (hnilIff.1 hnil) (hlink.1 hex)
    · have hne : find_file_by_guid t gs ≠ [] := fun hh => hlen (by rw [hh]; rfl)
      have hex : ∃ n ∈ descendants t,
          n.type = FirmwareType.File ∧ n.guid ∈ gs.map lowerStr := by
        by_contra hno
        exact hne (hnilIff.2 hno)
      apply iff_of_false
      · intro herr
        rw [find_PEs, if_neg hlen] at herr
        exact Except.noConfusion herr
      · intro hno
        exact hno (hlink.2 hex)
  · intro hex
    have hne : find_file_by_guid t gs ≠ [] := fun hh => (hnilIff.1 hh) (hlink.1 hex)
    have hlen : ¬ (find_file_by_guid t gs).length = 0 :=
      fun hh => hne (List.length_eq_zero.1 hh)
    exact ⟨_, by rw [find_PEs, if_neg hlen]⟩
  · intro m hm
    by_cases hlen : (find_file_by_guid t gs).length = 0
    · rw [find_PEs, if_pos hlen] at hm
      exact Except.noConfusion hm
    · rw [find_PEs, if_neg hlen] at hm
      have hm2 := Except.ok.inj hm
      cases hfound : find_file_by_guid t gs with
      | nil => exact absurd (by rw [hfound]; rfl) hlen
      | cons f fs =>
        rw [hfound, List.foldl_cons] at hm2
        have hne2 := pesFold_ne_nil fs
          (pesInsertExtend [] f.1 (find_PE32 f.2)) (pesInsertExtend_ne_nil [] f.1 _)
        exact hm2 ▸ hne2

/-- C4, witness: `tree0`, whose root is a Volume, with the upper-case target
`A`, returns normally because its File child carries GUID `a`. -/
theorem c4_notfound_iff_witness :
    tree0.type ≠ FirmwareType.File ∧ ∃ m, find_PEs tree0 [['A']] = .ok m :=
  ⟨by decide,
    (c4_notfound_iff tree0 [['A']] (by decide)).2.1
      ⟨file0, List.mem_cons_of_mem _ (List.mem_cons_self _ _), by decide⟩⟩

/-- C5, counterexample: under a matching File node holding an Image nested
inside another Image, `find_PE32` returns only the outer Image node, not
every Image node of the subtree as the claim states. -/
theorem c5_nested_image_counterexample :
    find_PE32 fileNest ≠ allImages fileNest :=
  fun h => absurd (congrArg List.length h) (by decide)

/-- C5, amended: the image-collection pass returns, in pre-order with
children in original order, exactly the *outermost* Image nodes of the
subtree — those with no Image strict ancestor — because the walk stops
descending at an Image node; a subtree with no Image node at all yields the
empty list rather than an error. -/
theorem c5_image_collection_amended (t : FirmwareObject) :
    find_PE32 t =
      ((preorderAnc false t).filter
        (fun pr => !pr.1 && decide (pr.2.type = FirmwareType.Image))).map Prod.snd ∧
    (allImages t = [] → find_PE32 t = []) :=
  ⟨find_PE32_eq_nonNested t, find_PE32_eq_nil t⟩

/-- C5, witness: a File node with no Image descendant contributes the empty
list. -/
theorem c5_image_collection_witness : find_PE32 fileNoImages = [] :=
  (c5_image_collection_amended fileNoImages).2 rfl

/-- C6: the firmware-tree search is deterministic — identical parsed trees
and identical target GUID lists give identical `find_PEs` results. -/
theorem c6_deterministic (t1 t2 : FirmwareObject) (gs1 gs2 : List Str)
    (ht : t1 = t2) (hg : gs1 = gs2) : find_PEs t1 gs1 = find_PEs t2 gs2 := by
  rw [ht, hg]

/-- C6, witness. -/
theorem c6_deterministic_witness :
    find_PEs tree0 [['a']] = find_PEs tree0 [['a']] :=
  c6_deterministic tree0 tree0 [['a']] [['a']] rfl rfl

/-- C7: for every listed entry of a well-formed container (each stored path
present on the volume / in the archive, and — FAT invariant — directory
`filesize` equal to content length), `open` succeeds, the handle opens, and
`size()` equals the byte count of reading the fresh handle to exhaustion. -/
theorem c7_size_matches_read :
    (∀ (p : IsoFileParser) (name : Str), isoWfB p = true → name ∈ listCapsulesIso p →
      ∃ d h, (isoOpen p name).1 = .ok d ∧ isoEnter d = some h ∧
        (isoSize h).1 = some (isoRead h).1.length) ∧
    (∀ (p : ExeFileParser) (name : Str), exeWfB p = true → name ∈ listCapsulesExe p →
      ∃ d h, (exeOpen p name).1 = .ok d ∧ exeEnter p.archive d = some h ∧
        (exeSize h).1 = (exeRead h).1.length) := by
  constructor
  · intro p name hwf hmem
    rcases dictLookup_mem p.capsules name hmem with ⟨path, hlook, hpair⟩
    rw [isoWfB] at hwf
    have hwf2 := (List.all_eq_true.1 hwf) (name, path) hpair
    cases hvol : dictLookup p.volume path with
    | none =>
      rw [hvol] at hwf2
      exact absurd hwf2 (by simp)
    | some fl =>
      rw [hvol] at hwf2
      have hsz : fl.filesize = fl.data.length := by
        simpa using hwf2
      refine ⟨⟨p.volume, path⟩, ⟨p.volume, path, fl, 0⟩, ?_, ?_, ?_⟩
      · rw [isoOpen, hlook]
      · show (dictLookup p.volume path).map _ = _
        rw [hvol]
        rfl
      · show (dictLookup p.volume path).map FatFile.filesize =
          some (fl.data.drop 0).length
        rw [hvol, List.drop_zero]
        exact congrArg some hsz
  · intro p name hwf hmem
    rcases dictLookup_mem p.capsules name hmem with ⟨path, hlook, hpair⟩
    rw [exeWfB] at hwf
    have hwf2 := (List.all_eq_true.1 hwf) (name, path) hpair
    cases harc : dictLookup p.archive path with
    | none =>
      rw [harc] at hwf2
      exact absurd hwf2 (by simp)
    | some b =>
      refine ⟨⟨path⟩, ⟨b, 0⟩, ?_, ?_, ?_⟩
      · rw [exeOpen, hlook]
      · show (dictLookup p.archive path).map _ = _
        rw [harc]
        rfl
      · show b.length = (b.drop 0).length
        rw [List.drop_zero]

/-- C7, witness: one concrete container of each backend. -/
theorem c7_size_matches_read_witness :
    (∃ d h, (isoOpen isoP0 "B.FL1".toList).1 = .ok d ∧ isoEnter d = some h ∧
      (isoSize h).1 = some (isoRead h).1.length) ∧
    (∃ d h, (exeOpen exeP0 "B.FL1".toList).1 = .ok d ∧
      exeEnter exeP0.archive d = some h ∧
      (exeSize h).1 = (exeRead h).1.length) :=
  ⟨c7_size_matches_read.1 isoP0 "B.FL1".toList (by decide) (by decide),
   c7_size_matches_read.2 exeP0 "B.FL1".toList (by decide) (by decide)⟩

/-- C8: `open` on a name absent from the capsule dictionary fails with the
`KeyError` lookup error in both backends and leaves the parser state
unchanged. -/
theorem c8_open_absent :
    (∀ (p : IsoFileParser) (name : Str), name ∉ listCapsulesIso p →
      (isoOpen p name).1 = .error "KeyError: no available capsule with that name" ∧
      (isoOpen p name).2 = p) ∧
    (∀ (p : ExeFileParser) (name : Str), name ∉ listCapsulesExe p →
      (exeOpen p name).1 = .error "KeyError: no available capsule with that name" ∧
      (exeOpen p name).2 = p) := by
  constructor
  · intro p name hmem
    have hnone : dictLookup p.capsules name = none := (dictLookup_eq_none _ _).2 hmem
    rw [isoOpen, hnone]
    exact ⟨rfl, rfl⟩
  · intro p name hmem
    have hnone : dictLookup p.capsules name = none := (dictLookup_eq_none _ _).2 hmem
    rw [exeOpen, hnone]
    exact ⟨rfl, rfl⟩

/-- C8, witness: the name `NOPE` is absent from both concrete containers. -/
theorem c8_open_absent_witness :
    ((isoOpen isoP0 "NOPE".toList).1 =
        .error "KeyError: no available capsule with that name" ∧
      (isoOpen isoP0 "NOPE".toList).2 = isoP0) ∧
    ((exeOpen exeP0 "NOPE".toList).1 =
        .error "KeyError: no available capsule with that name" ∧
      (exeOpen exeP0 "NOPE".toList).2 = exeP0) :=
  ⟨c8_open_absent.1 isoP0 "NOPE".toList (by decide),
   c8_open_absent.2 exeP0 "NOPE".toList (by decide)⟩

/-- C9: when candidate paths share a basename, the capsule dictionary lists
that name exactly once, and it resolves to the value of the *last* candidate
with that basename in enumeration order (Python dict insertion overwrites). -/
theorem c9_duplicate_basenames (paths : List Str) (k : Str)
    (hk : k ∈ paths.map basename) :
    ((capsulesOf paths).map Prod.fst).count k = 1 ∧
    dictLookup (capsulesOf paths) k =
      lastValue? (paths.map (fun p => (basename p, p))) k := by
  constructor
  · apply count_eq_one_str
    · rw [capsulesOf]
      exact nodup_keys_dictOfPairs _
    · rw [capsulesOf, mem_keys_dictOfPairs, List.map_map]
      exact hk
  · rw [capsulesOf, dictLookup_dictOfPairs]

/-- C9, witness: `FLASH/A/B.FL1` and `FLASH/C/B.FL1` collapse to one entry
`B.FL1` resolving to the later path `FLASH/C/B.FL1`. -/
theorem c9_duplicate_basenames_witness :
    (((capsulesOf dupPaths).map Prod.fst).count "B.FL1".toList = 1 ∧
      dictLookup (capsulesOf dupPaths) "B.FL1".toList =
        lastValue? (dupPaths.map (fun p => (basename p, p))) "B.FL1".toList) ∧
    dictLookup (capsulesOf dupPaths) "B.FL1".toList = some "FLASH/C/B.FL1".toList :=
  ⟨c9_duplicate_basenames dupPaths "B.FL1".toList (by decide), by decide⟩

/-- C10: `LenovoExeCapsule.size()` rewinds the handle to offset 0 — whatever
was read before, a `read()` after `size()` returns the whole file — while
`LenovoISOCapsule.size()` uses a separate file object and leaves the handle
(including its read position) unchanged. -/
theorem c10_size_seek_effects (h : ExeHandle) (g : IsoHandle) :
    ((exeSize h).2.pos = 0 ∧ (exeSize h).1 = h.data.length ∧
      (exeRead (exeSize h).2).1 = h.data) ∧
    (isoSize g).2 = g := by
  refine ⟨⟨rfl, rfl, ?_⟩, rfl⟩
  show h.data.drop 0 = h.data
  exact List.drop_zero _
